import Mathlib

/-!
Verification development for the QuantTrading repository.

The core under study is `add_execution_price` in `features.py`, which adds
three derived columns to an OHLCV table:

  df['mid'] = (df['High'] + df['Low']) / 2
  df['spread_est'] = spread_coeff * (df['High'] - df['Low']) / df['mid']
  np.random.seed(42)
  noise = np.random.normal(0, sigma_noise, size=len(df))
  df['execution_price'] = df['mid'] + (df['spread_est'] / 2) + noise
  df['execution_price'] = df['execution_price'].clip(lower=0)

We also embed `load_ohlcv_data` from `features.py` (which reads the
hard-coded path "ohlcv_data.csv", ignoring its `file_path` argument) and
`filter_tickers` from `collection.py` (which lists the tickers whose
earliest date is strictly later than a cutoff).

Numeric model: input bar columns are exact rationals; the derived columns
live in `FV`, rationals extended with IEEE-style NaN and signed infinities,
because the unguarded division by `mid` produces a NaN on a High = Low = 0
row (0/0) and pandas `clip` propagates that NaN.  Finite arithmetic is
treated as exact, matching the spec's "within floating-point tolerance".
-/

/-- A float value: a finite rational, NaN, or a signed infinity.  Finite
arithmetic is exact; the non-finite propagation rules follow IEEE 754
(signed zeros are not modelled). -/
inductive FV where
  | fin (q : ℚ)
  | nan
  | inf
  | ninf
deriving DecidableEq

/-- IEEE-style addition on `FV`. -/
def FV.add : FV → FV → FV
  | .nan, _ => .nan
  | _, .nan => .nan
  | .inf, .ninf => .nan
  | .ninf, .inf => .nan
  | .inf, _ => .inf
  | _, .inf => .inf
  | .ninf, _ => .ninf
  | _, .ninf => .ninf
  | .fin a, .fin b => .fin (a + b)

/-- IEEE-style negation on `FV`. -/
def FV.neg : FV → FV
  | .fin a => .fin (-a)
  | .nan => .nan
  | .inf => .ninf
  | .ninf => .inf

/-- IEEE-style subtraction on `FV`: `a - b = a + (-b)`. -/
def FV.sub (a b : FV) : FV := FV.add a (FV.neg b)

/-- IEEE-style multiplication on `FV`. -/
def FV.mul : FV → FV → FV
  | .nan, _ => .nan
  | _, .nan => .nan
  | .fin a, .fin b => .fin (a * b)
  | .inf, .fin b => if b = 0 then .nan else if 0 < b then .inf else .ninf
  | .fin a, .inf => if a = 0 then .nan else if 0 < a then .inf else .ninf
  | .ninf, .fin b => if b = 0 then .nan else if 0 < b then .ninf else .inf
  | .fin a, .ninf => if a = 0 then .nan else if 0 < a then .ninf else .inf
  | .inf, .inf => .inf
  | .inf, .ninf => .ninf
  | .ninf, .inf => .ninf
  | .ninf, .ninf => .inf

/-- IEEE-style division on `FV`: `0/0` is NaN, `a/0` for finite `a ≠ 0` is a
signed infinity (the sign of zero is not modelled, so the sign follows the
numerator alone). -/
def FV.div : FV → FV → FV
  | .nan, _ => .nan
  | _, .nan => .nan
  | .fin a, .fin b =>
      if b = 0 then (if a = 0 then .nan else if 0 < a then .inf else .ninf)
      else .fin (a / b)
  | .fin _, .inf => .fin 0
  | .fin _, .ninf => .fin 0
  | .inf, .fin b => if 0 ≤ b then .inf else .ninf
  | .ninf, .fin b => if 0 ≤ b then .ninf else .inf
  | .inf, .inf => .nan
  | .inf, .ninf => .nan
  | .ninf, .inf => .nan
  | .ninf, .ninf => .nan

instance : Add FV := ⟨FV.add⟩

instance : Neg FV := ⟨FV.neg⟩

instance : Sub FV := ⟨FV.sub⟩

instance : Mul FV := ⟨FV.mul⟩

instance : Div FV := ⟨FV.div⟩

/-- pandas `Series.clip(lower=0)` on one value: finite values are raised to
at least `0`, `-inf` becomes `0`, and NaN propagates unchanged (pandas
`clip` leaves missing values as they are). -/
def FV.clipLower0 : FV → FV
  | .fin a => .fin (max a 0)
  | .nan => .nan
  | .inf => .inf
  | .ninf => .fin 0

/-- IEEE comparison `0 ≤ v`: false for NaN and `-inf`. -/
def FV.nonneg : FV → Bool
  | .fin a => decide (0 ≤ a)
  | .inf => true
  | .nan => false
  | .ninf => false

/-- IEEE strict order on `FV`: NaN compares false with everything. -/
def FV.lt : FV → FV → Bool
  | .nan, _ => false
  | _, .nan => false
  | .fin a, .fin b => decide (a < b)
  | .ninf, .ninf => false
  | .inf, .inf => false
  | .ninf, _ => true
  | _, .inf => true
  | _, _ => false

/-- Whether a value is finite (neither NaN nor an infinity). -/
def FV.isFinite : FV → Bool
  | .fin _ => true
  | _ => false

/-- One OHLCV bar: the row (Ticker, Date, Open, High, Low, Close, Volume)
of the normalized table.  Dates are modelled as integers (day numbers) so
only their order matters. -/
structure Bar where
  ticker : String
  date : Int
  Open : ℚ
  High : ℚ
  Low : ℚ
  Close : ℚ
  Volume : ℚ
deriving DecidableEq

/-- A bar augmented with the three derived columns written by
`add_execution_price`. -/
structure AugBar where
  bar : Bar
  mid : FV
  spread_est : FV
  execution_price : FV
deriving DecidableEq

/-- One step of a linear congruential generator modulo 2^32. -/
def lcg (s : ℕ) : ℕ := (1664525 * s + 1013904223) % 4294967296

/-- Global generator state after `n` draws from initial seed `seed`. -/
def rngState (seed : ℕ) : ℕ → ℕ
  | 0 => seed % 4294967296
  | n + 1 => lcg (rngState seed n)

/-- Modelled from the spec: the seeded standard-normal sampler of the
reference (`np.random.seed(seed)` followed by `np.random.normal`) is a
Mersenne-twister floating-point generator that is not part of this
repository; the spec requires only that it be a fixed, documented,
deterministic function of the seed and the draw index.  We model draw `i`
as a deterministic rational in `[-1, 1)` computed from an LCG stream. -/
def stdNormalSample (seed i : ℕ) : ℚ := (rngState seed (i + 1) : ℚ) / 2147483648 - 1

/-- Draw `i` of `np.random.normal(0, sigma, size=n)` under seed `seed`:
mean 0, scaled by `sigma`. -/
def noiseSample (seed : ℕ) (sigma : ℚ) (i : ℕ) : ℚ := sigma * stdNormalSample seed i

/-- The three derived values for the row at position `i`, exactly as
`add_execution_price` computes them columnwise: `mid = (High + Low)/2`,
`spread_est = spread_coeff * (High - Low) / mid`, and `execution_price`
is `mid + spread_est/2 + noise[i]` clipped below at 0.  All arithmetic is
the float arithmetic `FV`. -/
def augRow (seed : ℕ) (spread_coeff sigma_noise : ℚ) (i : ℕ) (b : Bar) : AugBar :=
  let m : FV := (FV.fin b.High + FV.fin b.Low) / FV.fin 2
  let spr : FV := FV.fin spread_coeff * (FV.fin b.High - FV.fin b.Low) / m
  let raw : FV := m + spr / FV.fin 2 + FV.fin (noiseSample seed sigma_noise i)
  { bar := b, mid := m, spread_est := spr, execution_price := FV.clipLower0 raw }

/-- Rows of the augmented table, starting at noise index `i`. -/
def augRows (seed : ℕ) (spread_coeff sigma_noise : ℚ) (i : ℕ) : List Bar → List AugBar
  | [] => []
  | b :: rest => augRow seed spread_coeff sigma_noise i b :: augRows seed spread_coeff sigma_noise (i + 1) rest

/-- Embedding of `add_execution_price(df, spread_coeff, sigma_noise)` from `features.py`:
adds the `mid`, `spread_est` and `execution_price` columns, drawing one
noise sample per row from the generator seeded with the fixed constant 42. -/
def add_execution_price (df : List Bar) (spread_coeff sigma_noise : ℚ) : List AugBar :=
  augRows 42 spread_coeff sigma_noise 0 df

/-- Variant of `add_execution_price` with the ambient global numpy RNG state made
explicit: the call executes `np.random.seed(42)`, which overwrites the
incoming global state `g` with the state seeded from 42, then draws
`len(df)` samples.  Returns the augmented table and the final global
state. -/
def add_execution_price_global (g : ℕ) (df : List Bar) (spread_coeff sigma_noise : ℚ) :
    List AugBar × ℕ :=
  (augRows 42 spread_coeff sigma_noise 0 df, rngState 42 df.length)

/-- The `execution_price` column of an augmented table. -/
def execution_price_col (l : List AugBar) : List FV := l.map AugBar.execution_price

/-- Embedding of `load_ohlcv_data(file_path)` from `features.py`: the filesystem is made
explicit as a map from path to parsed table; the body executes
`pd.read_csv("ohlcv_data.csv", index_col=[1, 0])`, reading the hard-coded
path and never consulting `file_path`. -/
def load_ohlcv_data (fs : String → List Bar) (file_path : String) : List Bar :=
  fs "ohlcv_data.csv"

/-- Minimum of a list of dates (`None` on the empty list), as
`group.index.get_level_values('Date').min()` computes it per group. -/
def minDate? : List Int → Option Int
  | [] => none
  | d :: ds =>
    match minDate? ds with
    | none => some d
    | some m => some (min d m)

/-- The dates of the rows of ticker `t`: the group of `t` under
`data.groupby(level='Ticker')`. -/
def group_dates (data : List Bar) (t : String) : List Int :=
  (data.filter (fun b => b.ticker == t)).map Bar.date

/-- Embedding of `filter_tickers(data, min_start_date)` from `collection.py`: for each
ticker present in the table, compute the minimum date of its group and
list the ticker when that minimum is strictly later than
`min_start_date`. -/
def filter_tickers (data : List Bar) (min_start_date : Int) : List String :=
  ((data.map Bar.ticker).dedup).filter (fun t =>
    match minDate? (group_dates data t) with
    | some d => decide (min_start_date < d)
    | none => false)

/-! ### Computation lemmas for the float model -/

theorem FV_add_fin (a b : ℚ) : FV.fin a + FV.fin b = FV.fin (a + b) := rfl

theorem FV_sub_fin (a b : ℚ) : FV.fin a - FV.fin b = FV.fin (a - b) := by
  show FV.sub _ _ = _
  simp [FV.sub, FV.neg, FV.add, sub_eq_add_neg]

theorem FV_mul_fin (a b : ℚ) : FV.fin a * FV.fin b = FV.fin (a * b) := rfl

theorem FV_div_fin (a b : ℚ) (h : b ≠ 0) : FV.fin a / FV.fin b = FV.fin (a / b) := by
  show FV.div _ _ = _
  simp [FV.div, h]

theorem FV_div_zero_zero : FV.fin 0 / FV.fin 0 = FV.nan := by
  show FV.div _ _ = _
  simp [FV.div]

theorem FV_clip_fin (a : ℚ) : FV.clipLower0 (FV.fin a) = FV.fin (max a 0) := rfl

/-! ### Per-row computation lemmas for `augRow` -/

theorem augRow_bar (seed : ℕ) (c s : ℚ) (i : ℕ) (b : Bar) :
    (augRow seed c s i b).bar = b := rfl

theorem augRow_mid_def (seed : ℕ) (c s : ℚ) (i : ℕ) (b : Bar) :
    (augRow seed c s i b).mid = (FV.fin b.High + FV.fin b.Low) / FV.fin 2 := rfl

theorem augRow_spread_def (seed : ℕ) (c s : ℚ) (i : ℕ) (b : Bar) :
    (augRow seed c s i b).spread_est
      = FV.fin c * (FV.fin b.High - FV.fin b.Low)
          / ((FV.fin b.High + FV.fin b.Low) / FV.fin 2) := rfl

theorem augRow_exec_proj (seed : ℕ) (c s : ℚ) (i : ℕ) (b : Bar) :
    (augRow seed c s i b).execution_price
      = FV.clipLower0 ((augRow seed c s i b).mid
          + (augRow seed c s i b).spread_est / FV.fin 2
          + FV.fin (noiseSample seed s i)) := rfl

theorem augRow_mid (seed : ℕ) (c s : ℚ) (i : ℕ) (b : Bar) :
    (augRow seed c s i b).mid = FV.fin ((b.High + b.Low) / 2) := by
  rw [augRow_mid_def, FV_add_fin, FV_div_fin _ _ (by norm_num)]

theorem augRow_spread (seed : ℕ) (c s : ℚ) (i : ℕ) (b : Bar) (h : b.High + b.Low ≠ 0) :
    (augRow seed c s i b).spread_est
      = FV.fin (c * (b.High - b.Low) / ((b.High + b.Low) / 2)) := by
  rw [augRow_spread_def, FV_add_fin, FV_sub_fin, FV_mul_fin,
    FV_div_fin _ _ (by norm_num),
    FV_div_fin _ _ (div_ne_zero h (by norm_num))]

theorem augRow_exec (seed : ℕ) (c s : ℚ) (i : ℕ) (b : Bar) (h : b.High + b.Low ≠ 0) :
    (augRow seed c s i b).execution_price
      = FV.fin (max ((b.High + b.Low) / 2
          + c * (b.High - b.Low) / ((b.High + b.Low) / 2) / 2
          + noiseSample seed s i) 0) := by
  rw [augRow_exec_proj, augRow_mid, augRow_spread _ _ _ _ _ h,
    FV_div_fin _ _ (by norm_num), FV_add_fin, FV_add_fin, FV_clip_fin]

theorem augRow_spread_zero (seed : ℕ) (c s : ℚ) (i : ℕ) (b : Bar)
    (hH : b.High = 0) (hL : b.Low = 0) :
    (augRow seed c s i b).spread_est = FV.nan := by
  rw [augRow_spread_def, hH, hL, FV_add_fin, FV_sub_fin, FV_mul_fin]
  norm_num [FV_div_fin _ _ (show (2:ℚ) ≠ 0 by norm_num), FV_div_zero_zero]

theorem augRow_exec_zero (seed : ℕ) (c s : ℚ) (i : ℕ) (b : Bar)
    (hH : b.High = 0) (hL : b.Low = 0) :
    (augRow seed c s i b).execution_price = FV.nan := by
  rw [augRow_exec_proj, augRow_mid, augRow_spread_zero _ _ _ _ _ hH hL]
  rfl

/-! ### Indexing lemmas for the augmented table -/

theorem getElem_map {α β : Type} (f : α → β) (l : List α) :
    ∀ i : ℕ, (l.map f)[i]? = (l[i]?).map f := by
  induction l with
  | nil => intro i; simp
  | cons a rest ih =>
    intro i
    cases i with
    | zero => simp
    | succ n => simp only [List.map_cons, List.getElem?_cons_succ]; exact ih n

theorem augRows_getElem (seed : ℕ) (c s : ℚ) (df : List Bar) :
    ∀ k i : ℕ, (augRows seed c s k df)[i]? = (df[i]?).map (augRow seed c s (k + i)) := by
  induction df with
  | nil => intro k i; simp [augRows]
  | cons b rest ih =>
    intro k i
    cases i with
    | zero => simp [augRows]
    | succ n =>
      have h := ih (k + 1) n
      simp only [augRows, List.getElem?_cons_succ, h]
      have : k + 1 + n = k + (n + 1) := by omega
      rw [this]

theorem add_exec_getElem_col (col : AugBar → FV) (df : List Bar) (c s : ℚ) (i : ℕ) (b : Bar)
    (hb : df[i]? = some b) :
    ((add_execution_price df c s).map col)[i]? = some (col (augRow 42 c s i b)) := by
  rw [getElem_map, add_execution_price, augRows_getElem, hb]
  simp

theorem augRows_map_bar (seed : ℕ) (c s : ℚ) (df : List Bar) :
    ∀ k : ℕ, (augRows seed c s k df).map AugBar.bar = df := by
  induction df with
  | nil => intro k; rfl
  | cons b rest ih => intro k; simp [augRows, augRow_bar, ih (k + 1)]

theorem augRows_map_mid (seed : ℕ) (c s : ℚ) (df : List Bar) :
    ∀ k : ℕ, (augRows seed c s k df).map AugBar.mid
      = df.map (fun b => FV.fin ((b.High + b.Low) / 2)) := by
  induction df with
  | nil => intro k; rfl
  | cons b rest ih => intro k; simp [augRows, augRow_mid, ih (k + 1)]

/-! ### The claims -/

/-- C1: for every row of the input table, `add_execution_price` sets the
`mid` column to exactly `(High + Low) / 2` for that row. -/
theorem C1_mid_column (df : List Bar) (c s : ℚ) :
    (add_execution_price df c s).map AugBar.mid
      = df.map (fun b => FV.fin ((b.High + b.Low) / 2)) :=
  augRows_map_mid 42 c s df 0

/-- C2: for every row whose `mid` value is nonzero (equivalently
`High + Low ≠ 0`), `add_execution_price` sets the `spread_est` column to
`spread_coeff * (High - Low) / mid` for that row. -/
theorem C2_spread_column (df : List Bar) (c s : ℚ) (i : ℕ) (b : Bar)
    (hb : df[i]? = some b) (hmid : b.High + b.Low ≠ 0) :
    ((add_execution_price df c s).map AugBar.spread_est)[i]?
      = some (FV.fin (c * (b.High - b.Low) / ((b.High + b.Low) / 2))) := by
  rw [add_exec_getElem_col _ _ _ _ _ _ hb, augRow_spread _ _ _ _ _ hmid]

/-- C2 witness: the spec's worked example, High = 105, Low = 95,
spread_coeff = 0.1: mid = 100 and spread_est = 0.1 * 10 / 100 = 0.01. -/
theorem C2_witness :
    ((105 : ℚ) + 95 ≠ 0)
    ∧ ((add_execution_price [⟨"X", 0, 100, 105, 95, 100, 0⟩] (1/10) (1/100)).map
        AugBar.spread_est)[0]? = some (FV.fin (1/100)) := by
  refine ⟨by norm_num, ?_⟩
  rw [C2_spread_column [⟨"X", 0, 100, 105, 95, 100, 0⟩] (1/10) (1/100) 0 _ rfl (by norm_num)]
  norm_num

/-- C3 counterexample: on a table containing a High = Low = 0 row the
returned `execution_price` is NaN (0/0 propagates through the sum and
`clip` keeps NaN), and NaN is not ≥ 0 — so "every row of the returned
table has execution_price ≥ 0" is false as stated. -/
theorem C3_counterexample :
    ¬ (∀ r ∈ add_execution_price [⟨"Z", 0, 0, 0, 0, 0, 0⟩] (1/10) (1/100),
        r.execution_price.nonneg = true) := by
  intro h
  have hmem : augRow 42 (1/10) (1/100) 0 ⟨"Z", 0, 0, 0, 0, 0, 0⟩
      ∈ add_execution_price [⟨"Z", 0, 0, 0, 0, 0, 0⟩] (1/10) (1/100) := by
    rw [add_execution_price]
    exact List.mem_singleton.mpr rfl
  have hval := h _ hmem
  rw [augRow_exec_zero 42 (1/10) (1/100) 0 _ rfl rfl] at hval
  simp [FV.nonneg] at hval

/-- C3 (amended): for every row whose `mid` is nonzero (High + Low ≠ 0),
the returned `execution_price` is a finite value ≥ 0, and when the
pre-clamp value `mid + spread_est/2 + noise` is negative the returned
value is exactly 0.  (A High = Low = 0 row instead yields NaN, which the
clip leaves in place.) -/
theorem C3_exec_nonneg (df : List Bar) (c s : ℚ) (i : ℕ) (b : Bar)
    (hb : df[i]? = some b) (hmid : b.High + b.Low ≠ 0) :
    ∃ q : ℚ,
      ((add_execution_price df c s).map AugBar.execution_price)[i]? = some (FV.fin q)
      ∧ 0 ≤ q
      ∧ ((b.High + b.Low) / 2 + c * (b.High - b.Low) / ((b.High + b.Low) / 2) / 2
          + noiseSample 42 s i < 0 → q = 0) := by
  refine ⟨max ((b.High + b.Low) / 2 + c * (b.High - b.Low) / ((b.High + b.Low) / 2) / 2
      + noiseSample 42 s i) 0, ?_, le_max_right _ _, fun hneg => max_eq_right hneg.le⟩
  rw [add_exec_getElem_col _ _ _ _ _ _ hb, augRow_exec _ _ _ _ _ hmid]

/-- C3 witness: the amended theorem applied to the spec's worked example
row (High = 105, Low = 95). -/
theorem C3_witness :
    ((105 : ℚ) + 95 ≠ 0)
    ∧ ∃ q : ℚ,
      ((add_execution_price [⟨"X", 0, 100, 105, 95, 100, 0⟩] (1/10) (1/100)).map
        AugBar.execution_price)[0]? = some (FV.fin q)
      ∧ 0 ≤ q
      ∧ (((105 : ℚ) + 95) / 2 + (1/10) * ((105 : ℚ) - 95) / (((105 : ℚ) + 95) / 2) / 2
          + noiseSample 42 (1/100) 0 < 0 → q = 0) := by
  refine ⟨by norm_num, ?_⟩
  have h := C3_exec_nonneg [⟨"X", 0, 100, 105, 95, 100, 0⟩] (1/10) (1/100) 0
    ⟨"X", 0, 100, 105, 95, 100, 0⟩ rfl (by norm_num)
  simpa using h

/-- C4: determinism — with the ambient global numpy RNG state made
explicit, two invocations on the identical table with the same
`spread_coeff` and `sigma_noise` produce identical `execution_price`
columns whatever the ambient states were, because `np.random.seed(42)`
overwrites the global state with the fixed constant before drawing. -/
theorem C4_deterministic (g1 g2 : ℕ) (df : List Bar) (c s : ℚ) :
    execution_price_col (add_execution_price_global g1 df c s).1
      = execution_price_col (add_execution_price_global g2 df c s).1 := rfl

/-- C5: `spread_est` is strictly monotone in `spread_coeff` — for a row
with High > Low ≥ 0 (so mid > 0 and the range is positive) and any pair of
coefficients c1 < c2, the `spread_est` computed with c2 is strictly
greater than the one computed with c1. -/
theorem C5_spread_strict_mono (df : List Bar) (s : ℚ) (i : ℕ) (b : Bar) (c1 c2 : ℚ)
    (hb : df[i]? = some b) (hL0 : 0 ≤ b.Low) (hlt : b.Low < b.High) (hc : c1 < c2) :
    ∃ q1 q2 : ℚ,
      ((add_execution_price df c1 s).map AugBar.spread_est)[i]? = some (FV.fin q1)
      ∧ ((add_execution_price df c2 s).map AugBar.spread_est)[i]? = some (FV.fin q2)
      ∧ q1 < q2 := by
  have hsum : (0 : ℚ) < b.High + b.Low := by linarith
  have hmid : b.High + b.Low ≠ 0 := ne_of_gt hsum
  refine ⟨c1 * (b.High - b.Low) / ((b.High + b.Low) / 2),
    c2 * (b.High - b.Low) / ((b.High + b.Low) / 2), ?_, ?_, ?_⟩
  · rw [add_exec_getElem_col _ _ _ _ _ _ hb, augRow_spread _ _ _ _ _ hmid]
  · rw [add_exec_getElem_col _ _ _ _ _ _ hb, augRow_spread _ _ _ _ _ hmid]
  · have hM : (0 : ℚ) < (b.High + b.Low) / 2 := by linarith
    have hd : (0 : ℚ) < b.High - b.Low := sub_pos.mpr hlt
    exact (div_lt_div_iff_of_pos_right hM).mpr (mul_lt_mul_of_pos_right hc hd)

/-- C5 witness: the worked row High = 105, Low = 95 with coefficients
0.1 < 0.2 gives spread_est 0.01 < 0.02. -/
theorem C5_witness :
    (0 ≤ (95 : ℚ)) ∧ ((95 : ℚ) < 105) ∧ ((1/10 : ℚ) < 2/10)
    ∧ ∃ q1 q2 : ℚ,
      ((add_execution_price [⟨"X", 0, 100, 105, 95, 100, 0⟩] (1/10) (1/100)).map
        AugBar.spread_est)[0]? = some (FV.fin q1)
      ∧ ((add_execution_price [⟨"X", 0, 100, 105, 95, 100, 0⟩] (2/10) (1/100)).map
        AugBar.spread_est)[0]? = some (FV.fin q2)
      ∧ q1 < q2 := by
  refine ⟨by norm_num, by norm_num, by norm_num, ?_⟩
  have h := C5_spread_strict_mono [⟨"X", 0, 100, 105, 95, 100, 0⟩] (1/100) 0
    ⟨"X", 0, 100, 105, 95, 100, 0⟩ (1/10) (2/10) rfl (by norm_num) (by norm_num) (by norm_num)
  simpa using h

/-- C6: on a row with High = Low = 0 (so mid = 0) the division in the
`spread_est` computation is unguarded: the returned `spread_est` is the
non-finite value NaN (0/0), not an error and not a default. -/
theorem C6_zero_mid_nonfinite (df : List Bar) (c s : ℚ) (i : ℕ) (b : Bar)
    (hb : df[i]? = some b) (hH : b.High = 0) (hL : b.Low = 0) :
    ((add_execution_price df c s).map AugBar.spread_est)[i]? = some FV.nan
    ∧ FV.isFinite FV.nan = false := by
  refine ⟨?_, rfl⟩
  rw [add_exec_getElem_col _ _ _ _ _ _ hb, augRow_spread_zero _ _ _ _ _ hH hL]

/-- C6 witness: a one-row table whose bar has High = Low = 0. -/
theorem C6_witness :
    (Bar.High ⟨"Z", 0, 0, 0, 0, 0, 0⟩ = 0) ∧ (Bar.Low ⟨"Z", 0, 0, 0, 0, 0, 0⟩ = 0)
    ∧ ((add_execution_price [⟨"Z", 0, 0, 0, 0, 0, 0⟩] (1/10) (1/100)).map
        AugBar.spread_est)[0]? = some FV.nan := by
  refine ⟨rfl, rfl, ?_⟩
  exact (C6_zero_mid_nonfinite [⟨"Z", 0, 0, 0, 0, 0, 0⟩] (1/10) (1/100) 0
    ⟨"Z", 0, 0, 0, 0, 0, 0⟩ rfl rfl rfl).1

/-- C7 counterexample: "no external state change" is false — calling
`add_execution_price` on a one-row table from ambient global RNG state 0
leaves the process-wide numpy generator in a different state, because
`np.random.seed(42)` reseeds it and one sample is drawn. -/
theorem C7_counterexample :
    (add_execution_price_global 0 [⟨"X", 0, 100, 105, 95, 100, 0⟩] (1/10) (1/100)).2 ≠ 0 := by
  decide

/-- C7 (amended): `add_execution_price` returns a table with the same
number of rows whose three added columns are the only change — stripping
them recovers the input table exactly, every pre-existing cell (Ticker,
Date, Open, High, Low, Close, Volume) unchanged and in order — and its
one side effect beyond the table is on the process-wide RNG state, which
it overwrites with the state obtained by reseeding with the fixed
constant 42 and drawing one sample per row, independently of the incoming
state. -/
theorem C7_frame_and_rng_state (g : ℕ) (df : List Bar) (c s : ℚ) :
    (add_execution_price_global g df c s).1.length = df.length
    ∧ (add_execution_price_global g df c s).1.map AugBar.bar = df
    ∧ (add_execution_price_global g df c s).2 = rngState 42 df.length := by
  refine ⟨?_, augRows_map_bar 42 c s df 0, rfl⟩
  have hlen := congrArg List.length (augRows_map_bar 42 c s df 0)
  simpa [add_execution_price_global] using hlen

/-- C8: the transformation is applied identically and independently per
row — the `mid` and `spread_est` of a row depend only on that row's own
High and Low, not on its position, its other fields, or any other row of
the table: two rows with the same High and Low, at any positions of any
two tables, receive the same `mid` and the same `spread_est`. -/
theorem C8_row_independence (df1 df2 : List Bar) (c s : ℚ) (i j : ℕ) (b1 b2 : Bar)
    (h1 : df1[i]? = some b1) (h2 : df2[j]? = some b2)
    (hH : b1.High = b2.High) (hL : b1.Low = b2.Low) :
    ((add_execution_price df1 c s).map AugBar.mid)[i]?
      = ((add_execution_price df2 c s).map AugBar.mid)[j]?
    ∧ ((add_execution_price df1 c s).map AugBar.spread_est)[i]?
      = ((add_execution_price df2 c s).map AugBar.spread_est)[j]? := by
  constructor
  · rw [add_exec_getElem_col _ _ _ _ _ _ h1, add_exec_getElem_col _ _ _ _ _ _ h2,
      augRow_mid_def, augRow_mid_def, hH, hL]
  · rw [add_exec_getElem_col _ _ _ _ _ _ h1, add_exec_getElem_col _ _ _ _ _ _ h2,
      augRow_spread_def, augRow_spread_def, hH, hL]

/-- C8 witness: rows at different positions of different tables, with
different tickers, dates and other fields but the same High and Low,
receive identical `mid` and `spread_est`. -/
theorem C8_witness :
    (([⟨"A", 1, 10, 20, 12, 15, 100⟩] : List Bar)[0]? = some ⟨"A", 1, 10, 20, 12, 15, 100⟩)
    ∧ (([⟨"C", 5, 1, 2, 1, 1, 1⟩, ⟨"B", 99, 0, 20, 12, 7, 3⟩] : List Bar)[1]?
        = some ⟨"B", 99, 0, 20, 12, 7, 3⟩)
    ∧ ((add_execution_price [⟨"A", 1, 10, 20, 12, 15, 100⟩] (1/10) (1/100)).map
        AugBar.mid)[0]?
      = ((add_execution_price [⟨"C", 5, 1, 2, 1, 1, 1⟩, ⟨"B", 99, 0, 20, 12, 7, 3⟩]
          (1/10) (1/100)).map AugBar.mid)[1]? := by
  refine ⟨rfl, rfl, ?_⟩
  exact (C8_row_independence [⟨"A", 1, 10, 20, 12, 15, 100⟩]
    [⟨"C", 5, 1, 2, 1, 1, 1⟩, ⟨"B", 99, 0, 20, 12, 7, 3⟩] (1/10) (1/100) 0 1
    ⟨"A", 1, 10, 20, 12, 15, 100⟩ ⟨"B", 99, 0, 20, 12, 7, 3⟩ rfl rfl rfl rfl).1

/-- C9: `load_ohlcv_data` ignores its `file_path` parameter — any two
argument values produce the same result, namely the parse of the
hard-coded path "ohlcv_data.csv" in the ambient filesystem. -/
theorem C9_file_path_ignored (fs : String → List Bar) (p1 p2 : String) :
    load_ohlcv_data fs p1 = load_ohlcv_data fs p2
    ∧ load_ohlcv_data fs p1 = fs "ohlcv_data.csv" := ⟨rfl, rfl⟩

/-- C10: `filter_tickers` uses a strict comparison — a ticker appears in
the returned bust list if and only if the minimum date of its group of
rows is strictly later than `min_start_date`; in particular a ticker
whose earliest date equals `min_start_date` exactly is not listed (and is
therefore retained). -/
theorem C10_strict_cutoff (data : List Bar) (cutoff : Int) (t : String) :
    (t ∈ filter_tickers data cutoff
      ↔ ∃ d, minDate? (group_dates data t) = some d ∧ cutoff < d)
    ∧ (minDate? (group_dates data t) = some cutoff → t ∉ filter_tickers data cutoff) := by
  constructor
  · constructor
    · intro ht
      rcases List.mem_filter.mp ht with ⟨_, hpred⟩
      rcases hcase : minDate? (group_dates data t) with _ | d
      · rw [hcase] at hpred
        simp at hpred
      · rw [hcase] at hpred
        exact ⟨d, rfl, by simpa using hpred⟩
    · rintro ⟨d, hmin, hlt⟩
      apply List.mem_filter.mpr
      refine ⟨?_, by simp [hmin, hlt]⟩
      rw [List.mem_dedup]
      have hne : group_dates data t ≠ [] := by
        intro h0
        rw [h0] at hmin
        simp [minDate?] at hmin
      rcases hfl : data.filter (fun b => b.ticker == t) with _ | ⟨b, rest⟩
      · exact absurd (by rw [group_dates, hfl]; rfl) hne
      · have hbmem : b ∈ data.filter (fun b => b.ticker == t) := by
          rw [hfl]
          exact List.mem_cons_self _ _
        rcases List.mem_filter.mp hbmem with ⟨hbd, hbt⟩
        have hbt' : b.ticker = t := by simpa using hbt
        exact hbt' ▸ List.mem_map_of_mem Bar.ticker hbd
  · intro hcut ht
    rcases List.mem_filter.mp ht with ⟨_, hpred⟩
    rw [hcut] at hpred
    simp at hpred

/-- C10 witness: with cutoff 7, ticker "B" (earliest date 10 > 7) is
listed as bust, while ticker "A" (earliest date exactly 7) is not listed
and is retained. -/
theorem C10_witness :
    "B" ∈ filter_tickers [⟨"A", 7, 0, 0, 0, 0, 0⟩, ⟨"B", 10, 0, 0, 0, 0, 0⟩] 7
    ∧ "A" ∉ filter_tickers [⟨"A", 7, 0, 0, 0, 0, 0⟩, ⟨"B", 10, 0, 0, 0, 0, 0⟩] 7 := by
  constructor
  · exact (C10_strict_cutoff [⟨"A", 7, 0, 0, 0, 0, 0⟩, ⟨"B", 10, 0, 0, 0, 0, 0⟩] 7 "B").1.mpr
      ⟨10, by decide, by decide⟩
  · exact (C10_strict_cutoff [⟨"A", 7, 0, 0, 0, 0, 0⟩, ⟨"B", 10, 0, 0, 0, 0, 0⟩] 7 "A").2
      (by decide)
